import Mathlib

/-!
Verification development for the Group10-ELIAS-ELLIS-VISMAC repository.

The repository consists of five Python scripts:
  generate_imgs.py, generated_imgs.py, generate_csv.py,
  generated_images_first/ord.py and open_clip_train/train.py.
Python strings are modelled as lists of characters (type Name below), so
that every string operation of the scripts is an executable structural
function.  External effects (the diffusion pipeline, the file system, the
optimizer) are modelled by explicit traces of events or by function
parameters, while all string handling, control flow and arithmetic are
translated directly from the source.
-/

/-- Python strings are modelled as lists of characters. -/
abbrev Name := List Char

/-- Characters of a Lean string literal, used to write concrete names. -/
def chars (s : String) : Name := s.data

/-- Model of Python str.strip(): drop whitespace from both ends.
(Only the ASCII whitespace recognised by Char.isWhitespace is modelled.) -/
def pyStrip (s : Name) : Name :=
  ((s.dropWhile Char.isWhitespace).reverse.dropWhile Char.isWhitespace).reverse

/-- Helper of pySplitWs: accumulates the current word (reversed) while
scanning the input. -/
def splitWsAux : Name → Name → List Name
  | [], acc => if acc = [] then [] else [acc.reverse]
  | c :: cs, acc =>
    if c.isWhitespace then
      if acc = [] then splitWsAux cs [] else acc.reverse :: splitWsAux cs []
    else splitWsAux cs (c :: acc)

/-- Model of Python str.split() with no argument: maximal runs of
non-whitespace characters, empty pieces discarded. -/
def pySplitWs (s : Name) : List Name := splitWsAux s []

/-- Decimal value of a list of digit characters; models Python int() on a
string of digits (the scripts only apply it to all-digit tokens). -/
def natOfDigits (ds : Name) : Nat :=
  ds.foldl (fun a c => a * 10 + (c.toNat - 48)) 0

/-- The decimal digit character for a value below ten.  The catch-all
arm is never reached on the digit inputs the model uses. -/
def digitChar : Nat → Char
  | 0 => '0'
  | 1 => '1'
  | 2 => '2'
  | 3 => '3'
  | 4 => '4'
  | 5 => '5'
  | 6 => '6'
  | 7 => '7'
  | 8 => '8'
  | _ => '9'

/-- Fuel-driven decimal printing; with fuel above the value it produces the
usual most-significant-first digit string of Python str(). -/
def natDigitsAux : Nat → Nat → Name
  | 0, _ => []
  | fuel + 1, n =>
    if n < 10 then [digitChar n]
    else natDigitsAux fuel (n / 10) ++ [digitChar (n % 10)]

/-- Decimal digit string of a natural number; models Python str(n). -/
def natDigits (n : Nat) : Name := natDigitsAux (n + 1) n

/-- Model of the f-string directive 03d: zero-pad the decimal form of n on
the left to a minimum width of three characters. -/
def zfill3 (n : Nat) : Name :=
  List.replicate (3 - (natDigits n).length) '0' ++ natDigits n

/-- Model of os.path.join for the two-argument uses in the scripts. -/
def pathJoinN (a b : Name) : Name :=
  if b.head? = some '/' then b
  else if a = [] ∨ a.getLast? = some '/' then a ++ b
  else a ++ '/' :: b

/-- Stable insertion of an element into a list, placing it before the first
element b with le a b; the building block of the stable sort below. -/
def insertSorted (le : α → α → Bool) (a : α) : List α → List α
  | [] => [a]
  | b :: l => if le a b then a :: b :: l else b :: insertSorted le a l

/-- Stable sort with respect to a boolean comparison, modelling Python
sorted(..., key=...) (Python sort is stable). -/
def sortBy (le : α → α → Bool) : List α → List α
  | [] => []
  | a :: l => insertSorted le a (sortBy le l)

/-! ### AverageMeter (train.py, lines 30-46) -/

/-- State of the AverageMeter class of train.py. -/
structure AverageMeter where
  val : ℚ
  avg : ℚ
  sum : ℚ
  count : ℚ
deriving DecidableEq

/-- Model of AverageMeter.reset (also the state built by init). -/
def AverageMeter.reset : AverageMeter := ⟨0, 0, 0, 0⟩

/-- Model of AverageMeter.update(val, n): val is stored, sum increases by
val * n, count by n, and avg becomes sum / count. -/
def AverageMeter.update (m : AverageMeter) (v : ℚ) (n : ℚ) : AverageMeter :=
  let s := m.sum + v * n
  let c := m.count + n
  ⟨v, s / c, s, c⟩

/-- Apply a sequence of update(val, n) calls in order. -/
def applyUpdates (m : AverageMeter) : List (ℚ × ℚ) → AverageMeter
  | [] => m
  | u :: us => applyUpdates (m.update u.1 u.2) us

/-- Total of the n arguments of a sequence of updates. -/
def sumN (us : List (ℚ × ℚ)) : ℚ := (us.map (fun u => u.2)).sum

/-- Total of the val * n products of a sequence of updates. -/
def sumVN (us : List (ℚ × ℚ)) : ℚ := (us.map (fun u => u.1 * u.2)).sum

/-! ### Logit-scale clamp (train.py, lines 194-196) -/

/-- Model of tensor.clamp_(lo, hi) on a scalar: first raise to lo, then cap
at hi, exactly as torch applies the two bounds. -/
def clampScalar (x lo hi : ℚ) : ℚ := min (max x lo) hi

/-- One training iteration that reaches the optimizer step, seen through
the logit_scale parameter: the optimizer moves it by an arbitrary update
function, after which line 196 clamps it to [0, logBound], where the code
sets logBound to math.log(100), approximately 4.6052. -/
def logitScaleStep (upd : ℚ → ℚ) (logBound ls : ℚ) : ℚ :=
  clampScalar (upd ls) 0 logBound

/-- Value of logit_scale after k iterations that reach the optimizer step,
starting from ls0. -/
def logitScaleAt (upd : ℚ → ℚ) (logBound ls0 : ℚ) : Nat → ℚ
  | 0 => ls0
  | k + 1 => logitScaleStep upd logBound (logitScaleAt upd logBound ls0 k)

/-! ### evaluate (train.py, lines 258-364) -/

/-- Observable actions of evaluate: the zero_shot_eval call, the forward
pass on each validation batch, the per-100-batches progress log, the final
metrics log, the tensorboard write, the results.jsonl write and the wandb
log. -/
inductive EvalEv
  | zeroShotCall
  | valForward (i : Nat)
  | valLog (i : Nat)
  | finalLog
  | tbScalar
  | jsonlWrite
  | wandbLog
deriving DecidableEq

/-- The fields of args that steer evaluate. -/
structure EvalArgs where
  is_master : Bool
  val_frequency : Nat
  epoch : Nat
  epochs : Nat
  save_logs : Bool
  has_tb : Bool
  use_wandb : Bool

/-- Model of evaluate (train.py lines 258-364).  The metric dictionaries
produced by zero_shot_eval and by the validation loop are abstract
parameters; the function returns the metrics dictionary together with the
trace of observable actions.  Line 260 returns the empty dictionary at once
when the process is not the master. -/
def evaluateRun (a : EvalArgs) (zeroShotMetrics : List (String × ℚ))
    (hasValData : Bool) (numValBatches : Nat)
    (valMetrics : List (String × ℚ)) : List (String × ℚ) × List EvalEv :=
  if a.is_master = false then ([], [])
  else
    let doVal := hasValData && (decide (a.val_frequency ≠ 0) &&
      (decide (a.epoch % a.val_frequency = 0) || decide (a.epoch = a.epochs)))
    let valEvs := (List.range numValBatches).map (fun i =>
      if i % 100 = 0 then [EvalEv.valForward i, EvalEv.valLog i]
      else [EvalEv.valForward i])
    let m2 := if doVal then zeroShotMetrics ++ valMetrics else zeroShotMetrics
    let evs2 := EvalEv.zeroShotCall :: (if doVal then valEvs.flatten else [])
    if m2 = [] then (m2, evs2)
    else
      (m2, evs2 ++ [EvalEv.finalLog]
        ++ (if a.save_logs then
              (if a.has_tb then [EvalEv.tbScalar] else []) ++ [EvalEv.jsonlWrite]
            else [])
        ++ (if a.use_wandb then [EvalEv.wandbLog] else []))

/-! ### train_one_epoch gradient accumulation (train.py, lines 85-192) -/

/-- The accumulation buffers of train_one_epoch when args.accum_freq is
above one: accum_images, accum_texts and the cached model features.
Batches are identified by their dataloader index. -/
structure AccumSt where
  accum_images : List Nat
  accum_texts : List Nat
  accum_features : List Nat
deriving DecidableEq

/-- Observable actions of one epoch of the accumulating training loop:
the no-grad forward pass that caches a batch, the re-run forward pass with
gradients for a cached batch, the backward call, and the optimizer step. -/
inductive TrainEv
  | cacheFwd (i : Nat)
  | gradFwd (j : Nat)
  | backwardEv (j : Nat)
  | optStep
deriving DecidableEq

/-- Model of the body of the dataloader loop of train_one_epoch for
args.accum_freq = f above one (lines 120-192).  Every batch is first run
without gradients and appended to the three accumulation buffers; when
(i + 1) mod f is nonzero the loop continues with no further action; when it
is zero the forward pass is re-run with gradients for each cached batch
followed by one backward call each, the optimizer is stepped once, and the
buffers are reset to empty. -/
def accumBatch (f : Nat) (st : AccumSt) (i : Nat) : AccumSt × List TrainEv :=
  let st1 : AccumSt :=
    ⟨st.accum_images ++ [i], st.accum_texts ++ [i], st.accum_features ++ [i]⟩
  if (i + 1) % f > 0 then
    (st1, [TrainEv.cacheFwd i])
  else
    (⟨[], [], []⟩,
      TrainEv.cacheFwd i ::
        (st1.accum_images.map
          (fun j => [TrainEv.gradFwd j, TrainEv.backwardEv j])).flatten
        ++ [TrainEv.optStep])

/-- State and event trace after the first n batches of the epoch. -/
def trainRun (f : Nat) : Nat → AccumSt × List TrainEv
  | 0 => (⟨[], [], []⟩, [])
  | n + 1 =>
    let r := trainRun f n
    let s := accumBatch f r.1 n
    (s.1, r.2 ++ s.2)

/-- Number of optimizer steps in a trace. -/
def countOptStep (evs : List TrainEv) : Nat :=
  evs.countP (fun e => match e with | TrainEv.optStep => true | _ => false)

/-- The batches cached in the buffers on arrival at batch i: the batches
since the last optimizer step. -/
def pending (f i : Nat) : List Nat := List.range' (i - i % f) (i % f)

/-! ### ord.py (generated_images_first/ord.py) -/

/-- The constant character run image_ of both the regex of ord.py and the
file names it builds. -/
def imgTag : Name := ['i', 'm', 'a', 'g', 'e', '_']

/-- Maximal leading run of decimal digits and the remaining characters;
models the greedy group of the regex part (backslash d)+. -/
def leadingDigits : Name → Name × Name
  | [] => ([], [])
  | c :: cs =>
    if c.isDigit then
      let r := leadingDigits cs
      (c :: r.1, r.2)
    else ([], c :: cs)

/-- Model of re.match applied to the pattern image_ followed by one or more
digits: the name must start with image_ and at least one digit; the result
is the decimal value of the maximal digit run. -/
def matchImageNum : Name → Option Nat
  | 'i' :: 'm' :: 'a' :: 'g' :: 'e' :: '_' :: rest =>
    let dr := leadingDigits rest
    if dr.1 = [] then none else some (natOfDigits dr.1)
  | _ => none

/-- Model of re.search for the same pattern: try a match at every start
position, left to right. -/
def searchImageNum : Name → Option Nat
  | [] => none
  | c :: cs =>
    match matchImageNum (c :: cs) with
    | some n => some n
    | none => searchImageNum cs

/-- Split a name at its last dot: the characters before the dot and the
dot together with everything after it. -/
def splitLastDot : Name → Option (Name × Name)
  | [] => none
  | c :: cs =>
    match splitLastDot cs with
    | some bd => some (c :: bd.1, bd.2)
    | none => if c = '.' then some ([], c :: cs) else none

/-- Model of os.path.splitext(name)[1] for plain file names: the part from
the last dot on, or empty when there is no dot or every character before
the last dot is itself a dot. -/
def extname (f : Name) : Name :=
  match splitLastDot f with
  | none => []
  | some bd => if bd.1.all (fun c => c = '.') then [] else bd.2

/-- Target name computed by ord.py for a matching file: image_ followed by
the parsed number zero-padded to at least three digits, followed by the
original extension.  Files that do not match the pattern get no target. -/
def renameTarget (f : Name) : Option Name :=
  match matchImageNum f with
  | none => none
  | some n => some (imgTag ++ zfill3 n ++ extname f)

/-- Sort key comparison of ord.py: files are ordered by the number found by
re.search, with non-matching files last (their key is float inf; equal keys
keep their listing order because Python sort is stable). -/
def ordKeyLe (a b : Name) : Bool :=
  match searchImageNum a, searchImageNum b with
  | some x, some y => decide (x ≤ y)
  | some _, none => true
  | none, some _ => false
  | none, none => true

/-- The rename performed for one file of the snapshot, if any. -/
def renameAct (f : Name) : Option (Name × Name) :=
  match renameTarget f with
  | none => none
  | some nn => if f = nn then none else some (f, nn)

/-- Model of the rename loop of ord.py over the snapshot todo of the
directory listing: dir is the current set of names in the directory.
os.rename(f, nn) removes the name f, replaces any existing name nn, and
adds nn.  The result is the final directory content and the list of
performed renames in order. -/
def ordPass : List Name → List Name → List Name × List (Name × Name)
  | dir, [] => (dir, [])
  | dir, f :: rest =>
    match renameAct f with
    | none => ordPass dir rest
    | some fn =>
      let dir2 := (dir.filter (fun g => g ≠ fn.1 && g ≠ fn.2)) ++ [fn.2]
      let r := ordPass dir2 rest
      (r.1, fn :: r.2)

/-- One complete run of ord.py on a directory: sort the listing by the
numeric key, then process every file of the snapshot. -/
def ordRun (files : List Name) : List Name × List (Name × Name) :=
  ordPass files (sortBy ordKeyLe files)

/-- A name the rename loop leaves alone: either it does not match the
pattern or it already equals its normalized target. -/
def ordFixed (g : Name) : Prop :=
  renameTarget g = none ∨ renameTarget g = some g

/-! ### generate_imgs.py and generated_imgs.py -/

/-- Prompt list of both image-generation scripts (generate_imgs.py line 19,
generated_imgs.py line 11): the stripped lines of the prompt file that are
non-empty after stripping, in file order. -/
def readPrompts (lines : List Name) : List Name :=
  (lines.map pyStrip).filter (fun l => !l.isEmpty)

/-- Sanitized prompt used inside the output file name: whitespace runs
replaced by an underscore, then truncated to 100 characters. -/
def sanitizedPrompt (p : Name) : Name :=
  (List.intercalate ['_'] (pySplitWs p)).take 100

/-- Output file name for the prompt of index i (zero-based):
image_ then i + 1 then an underscore then the sanitized prompt then .png. -/
def imageFileName (i : Nat) (p : Name) : Name :=
  imgTag ++ natDigits (i + 1) ++ '_' :: sanitizedPrompt p ++ chars ".png"

/-- Output folder of generate_imgs.py. -/
def genImgsFolder : Name := chars "generated_images"

/-- Observable actions of the loop of generate_imgs.py: a saved image file,
or the error print of the except branch for a prompt whose generation or
save raised. -/
inductive GenEv
  | saved (path : Name)
  | genError (p : Name)
deriving DecidableEq

/-- Model of the prompt loop of generate_imgs.py (lines 22-32).  The
parameter gen tells, per prompt index and prompt, whether the pipeline call
and save succeed; on success the image is saved under the file name built
from the index and the sanitized prompt, on failure the exception is caught
inside the loop body, an error is printed, and iteration continues. -/
def generateImgsLoop (gen : Nat → Name → Bool) : Nat → List Name → List GenEv
  | _, [] => []
  | i, p :: ps =>
    (if gen i p then GenEv.saved (pathJoinN genImgsFolder (imageFileName i p))
     else GenEv.genError p) :: generateImgsLoop gen (i + 1) ps

/-- Full run of generate_imgs.py on the lines of the prompt file. -/
def generateImgsRun (gen : Nat → Name → Bool) (lines : List Name) : List GenEv :=
  generateImgsLoop gen 0 (readPrompts lines)

/-- Model of the inner prompt loop of generated_imgs.py (lines 16-32) for
one output folder: prompts containing a colon are skipped (their index is
still consumed by enumerate); for the first remaining prompt an image is
saved and the exit(0) call on line 32 terminates the whole program, so the
loop never reaches a second prompt. -/
def generatedImgsInner (folder : Name) : Nat → List Name → Option Name
  | _, [] => none
  | i, p :: ps =>
    if p.contains ':' then generatedImgsInner folder (i + 1) ps
    else some (pathJoinN folder (imageFileName i p))

/-- Model of the outer folder loop of generated_imgs.py (line 13): folders
generated_images100 up to generated_images114; fuel counts the folders
still to process.  As soon as one image is saved the program exits. -/
def generatedImgsFolders (prompts : List Name) : Nat → Nat → List Name
  | _, 0 => []
  | j, fuel + 1 =>
    let folder := chars "generated_images" ++ natDigits (j + 100)
    match generatedImgsInner folder 0 prompts with
    | some path => [path]
    | none => generatedImgsFolders prompts (j + 1) fuel

/-- Full run of generated_imgs.py: the list of image files it saves. -/
def generatedImgsRun (lines : List Name) : List Name :=
  generatedImgsFolders (readPrompts lines) 0 15

/-! ### generate_csv.py -/

/-- Prompt list of generate_csv.py (lines 13-17): stripped lines that are
non-empty and contain no colon, in file order. -/
def promptLinesCSV (lines : List Name) : List Name :=
  (lines.map pyStrip).filter (fun l => !l.isEmpty && !(l.contains ':'))

/-- Helper of the natural sort key: the nonempty tokens obtained by
splitting at underscores, i.e. the list comprehension filter of line 23. -/
def splitUAux : Name → Name → List Name
  | [], acc => if acc = [] then [] else [acc.reverse]
  | c :: cs, acc =>
    if c = '_' then
      if acc = [] then splitUAux cs [] else acc.reverse :: splitUAux cs []
    else splitUAux cs (c :: acc)

/-- A token of the natural sort key: an integer for all-digit tokens, the
raw token otherwise. -/
inductive SortTok
  | num (n : Nat)
  | strT (s : Name)
deriving DecidableEq

/-- Model of natural_sort_key (generate_csv.py lines 22-23). -/
def natural_sort_key (s : Name) : List SortTok :=
  (splitUAux s []).map (fun t =>
    if !t.isEmpty && t.all Char.isDigit then SortTok.num (natOfDigits t)
    else SortTok.strT t)

/-- Lexicographic comparison of names by character code, as Python compares
strings. -/
def nameLt : Name → Name → Bool
  | [], [] => false
  | [], _ :: _ => true
  | _ :: _, [] => false
  | a :: xs, b :: ys =>
    if a < b then true else if b < a then false else nameLt xs ys

/-- Comparison of key tokens.  Python compares integers with integers and
strings with strings; comparing an integer token with a string token raises
TypeError, which this total model resolves by putting integer tokens first
(the repository folder holds uniformly named files, so the mixed case does
not arise there). -/
def tokLt : SortTok → SortTok → Bool
  | SortTok.num a, SortTok.num b => decide (a < b)
  | SortTok.strT a, SortTok.strT b => nameLt a b
  | SortTok.num _, SortTok.strT _ => true
  | SortTok.strT _, SortTok.num _ => false

/-- Lexicographic comparison of key lists, as Python compares lists. -/
def keyLt : List SortTok → List SortTok → Bool
  | [], [] => false
  | [], _ :: _ => true
  | _ :: _, [] => false
  | x :: xs, y :: ys =>
    if tokLt x y then true else if tokLt y x then false else keyLt xs ys

/-- The at-most comparison induced by the natural sort key, giving the
stable ascending order of sorted(..., key=natural_sort_key). -/
def fileLe (a b : Name) : Bool := !(keyLt (natural_sort_key b) (natural_sort_key a))

/-- The listing of a folder in natural sort order (line 29). -/
def sortedImageFiles (files : List Name) : List Name := sortBy fileLe files

/-- One data row of the CSV (lines 25-35): the prompt of index i followed,
for each folder, by the joined path of the i-th file of the folder in
natural sort order when the folder holds more than i files, and N/A
otherwise.  A folder is its path together with its listing. -/
def csvRow (folders : List (Name × List Name)) (i : Nat) (p : Name) : List Name :=
  p :: folders.map (fun fd =>
    let files := sortedImageFiles fd.2
    if i < files.length then pathJoinN fd.1 (files.getD i []) else chars "N/A")

/-- The data rows for the prompts from index i on; models the enumerate
loop of line 25. -/
def csvRowsAux (folders : List (Name × List Name)) :
    Nat → List Name → List (List Name)
  | _, [] => []
  | i, p :: ps => csvRow folders i p :: csvRowsAux folders (i + 1) ps

/-- Model of the CSV written by generate_csv.py (lines 37-45): the header
row Prompt followed by the folder paths, then one data row per prompt. -/
def generate_csv (lines : List Name) (folders : List (Name × List Name)) :
    List (List Name) :=
  (chars "Prompt" :: folders.map Prod.fst) :: csvRowsAux folders 0 (promptLinesCSV lines)

/-! ### get_clip_metrics (train.py, lines 367-384) -/

/-- Dot product of two feature vectors. -/
def dotQ (xs ys : List ℚ) : ℚ := (List.zipWith (fun a b => a * b) xs ys).sum

/-- Model of logit_scale * image_features @ text_features.t(): row i holds
the scaled similarities of image i with every text. -/
def logitsPerImage (scale : ℚ) (imgF txtF : List (List ℚ)) : List (List ℚ) :=
  imgF.map (fun r => txtF.map (fun s => scale * dotQ r s))

/-- Transpose of a rectangular matrix given its column count; models the
tensor transpose logits_per_image.t(). -/
def transposeM (ncols : Nat) (m : List (List ℚ)) : List (List ℚ) :=
  (List.range ncols).map (fun j => m.map (fun r => r.getD j 0))

/-- Model of torch.argsort(row, descending=True): the column indices of the
row sorted by decreasing value (a stable order among equal values). -/
def argsortDesc (row : List ℚ) : List Nat :=
  sortBy (fun a b => decide (row.getD b 0 ≤ row.getD a 0)) (List.range row.length)

/-- Positions (counted from k) of the occurrences of v in a list, in
ascending order; models one row of torch.where(ranking == ground_truth). -/
def matchPositions (v : Nat) : Nat → List Nat → List Nat
  | _, [] => []
  | k, x :: xs =>
    if x = v then k :: matchPositions v (k + 1) xs
    else matchPositions v (k + 1) xs

/-- The preds array for the rows from index i on: for each row, the
positions in its descending ranking holding the row index.  The row index
is the ground-truth label torch.arange(len(text_features)).view(-1, 1)
gives for a square logit matrix. -/
def predsAux : Nat → List (List ℚ) → List Nat
  | _, [] => []
  | i, row :: rows => matchPositions i 0 (argsortDesc row) ++ predsAux (i + 1) rows

/-- The preds array of one retrieval direction. -/
def predsOf (logits : List (List ℚ)) : List Nat := predsAux 0 logits

/-- The metrics of one retrieval direction. -/
structure DirMetrics where
  mean_rank : ℚ
  median_rank : ℚ
  r1 : ℚ
  r5 : ℚ
  r10 : ℚ
deriving DecidableEq

/-- Mean of a list of rationals, models np.mean (the scripts only take the
mean of nonempty arrays; on [] the model yields 0 where numpy yields NaN). -/
def npMean (xs : List ℚ) : ℚ := xs.sum / (xs.length : ℚ)

/-- Median of a list of rationals, models np.median: middle element of the
sorted list for odd length, average of the two middle elements for even
length. -/
def npMedian (xs : List ℚ) : ℚ :=
  let s := sortBy (fun a b => decide (a ≤ b)) xs
  if xs.length % 2 = 1 then s.getD (xs.length / 2) 0
  else (s.getD (xs.length / 2 - 1) 0 + s.getD (xs.length / 2) 0) / 2

/-- Indicator of preds below k, the boolean array preds lower-than k. -/
def indLt (k p : Nat) : ℚ := if p < k then 1 else 0

/-- The metric values computed from a preds array (train.py lines 379-382):
mean rank, median rank (with np.floor) and R at 1, 5, 10. -/
def metricsOfPreds (preds : List Nat) : DirMetrics :=
  { mean_rank := npMean (preds.map (Nat.cast : Nat → ℚ)) + 1
    median_rank := ((Int.floor (npMedian (preds.map (Nat.cast : Nat → ℚ)))) : ℚ) + 1
    r1 := npMean (preds.map (indLt 1))
    r5 := npMean (preds.map (indLt 5))
    r10 := npMean (preds.map (indLt 10)) }

/-- Model of get_clip_metrics: the metrics of the image_to_text direction
(rows of the scaled similarity matrix) and of the text_to_image direction
(rows of its transpose). -/
def get_clip_metrics (imgF txtF : List (List ℚ)) (scale : ℚ) :
    DirMetrics × DirMetrics :=
  let lpi := logitsPerImage scale imgF txtF
  let lpt := transposeM txtF.length lpi
  (metricsOfPreds (predsOf lpi), metricsOfPreds (predsOf lpt))

/-- The ordering facts claimed for the metrics of one direction. -/
def GoodMetrics (m : DirMetrics) : Prop :=
  0 ≤ m.r1 ∧ m.r1 ≤ m.r5 ∧ m.r5 ≤ m.r10 ∧ m.r10 ≤ 1 ∧
    1 ≤ m.mean_rank ∧ 1 ≤ m.median_rank

/-! ### Helper lemmas -/

/-- Membership in a stable insertion. -/
theorem mem_insertSorted (le : α → α → Bool) (a x : α) :
    ∀ l : List α, x ∈ insertSorted le a l ↔ x = a ∨ x ∈ l := by
  intro l
  induction l with
  | nil => simp [insertSorted]
  | cons b l ih =>
    by_cases h : le a b = true
    · simp [insertSorted, h]
    · simp only [insertSorted, h]
      simp [ih]
      tauto

/-- Membership in the stable sort. -/
theorem mem_sortBy (le : α → α → Bool) (x : α) :
    ∀ l : List α, x ∈ sortBy le l ↔ x ∈ l := by
  intro l
  induction l with
  | nil => simp [sortBy]
  | cons a l ih => simp [sortBy, mem_insertSorted, ih]

/-- Length of a stable insertion. -/
theorem length_insertSorted (le : α → α → Bool) (a : α) :
    ∀ l : List α, (insertSorted le a l).length = l.length + 1 := by
  intro l
  induction l with
  | nil => rfl
  | cons b l ih =>
    by_cases h : le a b = true
    · simp [insertSorted, h]
    · simp [insertSorted, h, ih]

/-- Length of the stable sort. -/
theorem length_sortBy (le : α → α → Bool) :
    ∀ l : List α, (sortBy le l).length = l.length := by
  intro l
  induction l with
  | nil => rfl
  | cons a l ih => simp [sortBy, length_insertSorted, ih]

/-- Appending the next element to a range of consecutive numbers. -/
theorem range'_snoc (s n : Nat) : List.range' s (n + 1) = List.range' s n ++ [s + n] := by
  have := @List.range'_concat 1 s n
  simpa using this

/-! ### Claim C10: the AverageMeter invariant -/

/-- Count accumulates the n arguments. -/
theorem applyUpdates_count :
    ∀ (us : List (ℚ × ℚ)) (m : AverageMeter),
      (applyUpdates m us).count = m.count + sumN us := by
  intro us
  induction us with
  | nil => intro m; simp [applyUpdates, sumN]
  | cons u us ih =>
    intro m
    rw [applyUpdates, ih]
    simp [AverageMeter.update, sumN]
    ring

/-- Sum accumulates the val * n products. -/
theorem applyUpdates_sum :
    ∀ (us : List (ℚ × ℚ)) (m : AverageMeter),
      (applyUpdates m us).sum = m.sum + sumVN us := by
  intro us
  induction us with
  | nil => intro m; simp [applyUpdates, sumVN]
  | cons u us ih =>
    intro m
    rw [applyUpdates, ih]
    simp [AverageMeter.update, sumVN]
    ring

/-- Val holds the argument of the last update. -/
theorem applyUpdates_val :
    ∀ (us : List (ℚ × ℚ)) (m : AverageMeter) (u : ℚ × ℚ),
      us.getLast? = some u → (applyUpdates m us).val = u.1 := by
  intro us
  induction us with
  | nil => intro m u h; simp at h
  | cons u0 us ih =>
    intro m u h
    cases us with
    | nil =>
      simp at h
      subst h
      simp [applyUpdates, AverageMeter.update]
    | cons u1 us =>
      rw [List.getLast?_cons_cons] at h
      rw [applyUpdates]
      exact ih _ u h

/-- The avg field always equals sum divided by count (with the division by
zero of the field sending the fresh meter to 0 / 0 = 0). -/
theorem applyUpdates_avg :
    ∀ (us : List (ℚ × ℚ)) (m : AverageMeter),
      m.avg = m.sum / m.count →
      (applyUpdates m us).avg = (applyUpdates m us).sum / (applyUpdates m us).count := by
  intro us
  induction us with
  | nil => intro m h; simpa [applyUpdates] using h
  | cons u us ih =>
    intro m _
    rw [applyUpdates]
    exact ih _ rfl

/-- Claim C10: after reset() followed by any finite sequence of
update(val, n) calls with every n positive, count is the sum of the n
arguments, sum is the sum of the val * n products, val is the last val
argument, and avg is sum divided by count; before any update all four
fields are 0. -/
theorem average_meter_invariant (us : List (ℚ × ℚ))
    (hpos : ∀ u ∈ us, 0 < u.2) :
    (applyUpdates AverageMeter.reset us).count = sumN us ∧
    (applyUpdates AverageMeter.reset us).sum = sumVN us ∧
    (∀ u, us.getLast? = some u → (applyUpdates AverageMeter.reset us).val = u.1) ∧
    (applyUpdates AverageMeter.reset us).avg =
      (applyUpdates AverageMeter.reset us).sum /
        (applyUpdates AverageMeter.reset us).count ∧
    applyUpdates AverageMeter.reset [] = ⟨0, 0, 0, 0⟩ := by
  refine ⟨?_, ?_, ?_, ?_, rfl⟩
  · rw [applyUpdates_count]; simp [AverageMeter.reset]
  · rw [applyUpdates_sum]; simp [AverageMeter.reset]
  · intro u h; exact applyUpdates_val us _ u h
  · exact applyUpdates_avg us AverageMeter.reset (by simp [AverageMeter.reset])

/-- Witness for C10 at a concrete update sequence. -/
theorem average_meter_invariant_witness :
    (∀ u ∈ [((3 : ℚ), (2 : ℚ)), (5, 1)], 0 < u.2) ∧
    (applyUpdates AverageMeter.reset [((3 : ℚ), (2 : ℚ)), (5, 1)]).count =
      sumN [((3 : ℚ), (2 : ℚ)), (5, 1)] :=
  ⟨by decide, (average_meter_invariant _ (by decide)).1⟩

/-! ### Claim C8: logit_scale stays in the clamp interval -/

/-- Claim C8: at the end of every training iteration that reaches the
optimizer step the logit_scale parameter lies in [0, logBound], the clamp
interval of line 196 whose upper end the code sets to math.log(100),
approximately 4.6052. -/
theorem logit_scale_clamped_invariant (upd : ℚ → ℚ) (logBound ls0 : ℚ)
    (hB : 0 ≤ logBound) (k : Nat) (hk : 1 ≤ k) :
    0 ≤ logitScaleAt upd logBound ls0 k ∧
      logitScaleAt upd logBound ls0 k ≤ logBound := by
  cases k with
  | zero => exact absurd hk (by omega)
  | succ j =>
    rw [logitScaleAt, logitScaleStep, clampScalar]
    exact ⟨le_min (le_max_right _ _) hB, min_le_right _ _⟩

/-- Witness for C8 with a concrete update function and bound. -/
theorem logit_scale_clamped_invariant_witness :
    (0 : ℚ) ≤ 46052 / 10000 ∧ (1 : Nat) ≤ 1 ∧
    (0 ≤ logitScaleAt (fun x => x + 100) (46052 / 10000) (-3) 1 ∧
      logitScaleAt (fun x => x + 100) (46052 / 10000) (-3) 1 ≤ 46052 / 10000) :=
  ⟨by norm_num, le_refl 1,
    logit_scale_clamped_invariant (fun x => x + 100) (46052 / 10000) (-3)
      (by norm_num) 1 (le_refl 1)⟩

/-! ### Claim C7: evaluate on a non-master process -/

/-- Claim C7: when the calling process is not the master, evaluate returns
the empty metrics dictionary at once, with no zero-shot evaluation, no
validation batch, and no log output of any kind. -/
theorem evaluate_non_master_returns_empty (a : EvalArgs)
    (zs : List (String × ℚ)) (hv : Bool) (nb : Nat)
    (vm : List (String × ℚ)) (h : a.is_master = false) :
    evaluateRun a zs hv nb vm = ([], []) := by
  simp [evaluateRun, h]

/-- Witness for C7 at concrete arguments. -/
theorem evaluate_non_master_returns_empty_witness :
    (EvalArgs.mk false 1 0 2 true true true).is_master = false ∧
    evaluateRun (EvalArgs.mk false 1 0 2 true true true)
      [("zero-shot-acc", (1 : ℚ))] true 3 [] = ([], []) :=
  ⟨rfl, evaluate_non_master_returns_empty _ _ _ _ _ rfl⟩

/-! ### Claim C9: error isolation in generate_imgs.py -/

/-- The loop of generate_imgs.py emits one event per prompt. -/
theorem generateImgsLoop_length (gen : Nat → Name → Bool) :
    ∀ (ps : List Name) (k : Nat), (generateImgsLoop gen k ps).length = ps.length := by
  intro ps
  induction ps with
  | nil => intro k; rfl
  | cons p ps ih => intro k; simp [generateImgsLoop, ih]

/-- The event of the prompt at index i of the loop starting at index k. -/
theorem generateImgsLoop_getElem? (gen : Nat → Name → Bool) :
    ∀ (ps : List Name) (k i : Nat) (p : Name), ps[i]? = some p →
      (generateImgsLoop gen k ps)[i]? =
        some (if gen (k + i) p then
                GenEv.saved (pathJoinN genImgsFolder (imageFileName (k + i) p))
              else GenEv.genError p) := by
  intro ps
  induction ps with
  | nil => intro k i p h; simp at h
  | cons p0 ps ih =>
    intro k i p h
    cases i with
    | zero =>
      simp at h
      subst h
      simp [generateImgsLoop]
    | succ i =>
      rw [List.getElem?_cons_succ] at h
      rw [generateImgsLoop, List.getElem?_cons_succ]
      have e : k + 1 + i = k + (i + 1) := by omega
      rw [ih (k + 1) i p h, e]

/-- Claim C9: an exception while generating or saving the image for one
prompt is caught inside the loop body and reported, and iteration continues
with the next prompt: every prompt produces its own event, the trace covers
all prompts whatever the failure pattern, and the outcome for a prompt
depends only on its own success bit, so a failure on an earlier prompt
never prevents a later image from being generated and saved. -/
theorem generate_imgs_error_isolation (gen : Nat → Name → Bool)
    (lines : List Name) (i : Nat) (p : Name)
    (hp : (readPrompts lines)[i]? = some p) :
    (generateImgsRun gen lines).length = (readPrompts lines).length ∧
    (gen i p = true →
      GenEv.saved (pathJoinN genImgsFolder (imageFileName i p)) ∈
        generateImgsRun gen lines) ∧
    (gen i p = false → GenEv.genError p ∈ generateImgsRun gen lines) := by
  have hget := generateImgsLoop_getElem? gen (readPrompts lines) 0 i p hp
  rw [Nat.zero_add] at hget
  refine ⟨generateImgsLoop_length gen _ 0, ?_, ?_⟩
  · intro hg
    rw [hg] at hget
    simp only [if_true] at hget
    exact List.getElem?_mem hget
  · intro hg
    rw [hg] at hget
    simp only [Bool.false_eq_true, if_false] at hget
    exact List.getElem?_mem hget

/-- Witness for C9: the first prompt fails, the second succeeds and its
image is still saved. -/
theorem generate_imgs_error_isolation_witness :
    ((readPrompts [chars "a doctor", chars "a nurse"])[1]? =
      some (chars "a nurse")) ∧
    ((fun i (_ : Name) => decide (i ≠ 0)) 1 (chars "a nurse") = true →
      GenEv.saved (pathJoinN genImgsFolder (imageFileName 1 (chars "a nurse"))) ∈
        generateImgsRun (fun i (_ : Name) => decide (i ≠ 0))
          [chars "a doctor", chars "a nurse"]) :=
  ⟨by decide,
    (generate_imgs_error_isolation (fun i (_ : Name) => decide (i ≠ 0))
      [chars "a doctor", chars "a nurse"] 1 (chars "a nurse") (by decide)).2.1⟩

/-! ### Claim C3: structure of the CSV of generate_csv.py -/

/-- The data-row builder emits one row per prompt. -/
theorem csvRowsAux_length (folders : List (Name × List Name)) :
    ∀ (ps : List Name) (k : Nat), (csvRowsAux folders k ps).length = ps.length := by
  intro ps
  induction ps with
  | nil => intro k; rfl
  | cons p ps ih => intro k; simp [csvRowsAux, ih]

/-- The data row of the prompt at index i of the builder starting at k. -/
theorem csvRowsAux_getElem? (folders : List (Name × List Name)) :
    ∀ (ps : List Name) (k i : Nat) (p : Name), ps[i]? = some p →
      (csvRowsAux folders k ps)[i]? = some (csvRow folders (k + i) p) := by
  intro ps
  induction ps with
  | nil => intro k i p h; simp at h
  | cons p0 ps ih =>
    intro k i p h
    cases i with
    | zero =>
      simp at h
      subst h
      simp [csvRowsAux]
    | succ i =>
      rw [List.getElem?_cons_succ] at h
      rw [csvRowsAux, List.getElem?_cons_succ]
      have e : k + 1 + i = k + (i + 1) := by omega
      rw [ih (k + 1) i p h, e]

/-- Every row the builder emits is a csvRow. -/
theorem csvRowsAux_mem (folders : List (Name × List Name)) :
    ∀ (ps : List Name) (k : Nat) (r : List Name), r ∈ csvRowsAux folders k ps →
      ∃ i p, r = csvRow folders i p := by
  intro ps
  induction ps with
  | nil => intro k r h; simp [csvRowsAux] at h
  | cons p0 ps ih =>
    intro k r h
    rw [csvRowsAux] at h
    rcases List.mem_cons.mp h with h0 | h1
    · exact ⟨k, p0, h0⟩
    · exact ih (k + 1) r h1

/-- Claim C3: the CSV starts with the header row Prompt followed by the
folder paths; there is one data row per prompt, where the prompts are the
stripped non-empty colon-free lines of the prompt file in file order; the
data row of prompt i starts with the prompt and holds, for each folder, the
joined path of the i-th file of the folder in natural sort order when the
folder has more than i files and N/A otherwise; and every row, data or
header, has length 1 + number of folders. -/
theorem generate_csv_structure (lines : List Name)
    (folders : List (Name × List Name)) :
    (generate_csv lines folders).head? =
      some (chars "Prompt" :: folders.map Prod.fst) ∧
    (generate_csv lines folders).length = 1 + (promptLinesCSV lines).length ∧
    (∀ i p, (promptLinesCSV lines)[i]? = some p →
      (generate_csv lines folders)[i + 1]? =
        some (p :: folders.map (fun fd =>
          if i < (sortedImageFiles fd.2).length
          then pathJoinN fd.1 ((sortedImageFiles fd.2).getD i [])
          else chars "N/A"))) ∧
    (∀ r ∈ generate_csv lines folders, r.length = 1 + folders.length) := by
  refine ⟨rfl, ?_, ?_, ?_⟩
  · simp [generate_csv, csvRowsAux_length]
    omega
  · intro i p h
    rw [generate_csv, List.getElem?_cons_succ,
      csvRowsAux_getElem? folders (promptLinesCSV lines) 0 i p h]
    simp [csvRow]
  · intro r hr
    rw [generate_csv] at hr
    rcases List.mem_cons.mp hr with h0 | h1
    · simp [h0]
      omega
    · obtain ⟨i, p, rfl⟩ := csvRowsAux_mem folders _ 0 r h1
      simp [csvRow]
      omega

/-- Witness for C3 at a concrete prompt file and folder listing. -/
theorem generate_csv_structure_witness :
    ((promptLinesCSV [chars "  alpha beta ", chars "skip: me", chars "gamma"])[0]? =
      some (chars "alpha beta")) ∧
    ((generate_csv [chars "  alpha beta ", chars "skip: me", chars "gamma"]
        [(chars "/work/f", [chars "image_1_x.png", chars "image_2_y.png"])])[0 + 1]? =
      some (chars "alpha beta" ::
        [(chars "/work/f", [chars "image_1_x.png", chars "image_2_y.png"])].map
          (fun fd =>
            if 0 < (sortedImageFiles fd.2).length
            then pathJoinN fd.1 ((sortedImageFiles fd.2).getD 0 [])
            else chars "N/A"))) :=
  ⟨by decide,
    (generate_csv_structure
      [chars "  alpha beta ", chars "skip: me", chars "gamma"]
      [(chars "/work/f", [chars "image_1_x.png", chars "image_2_y.png"])]).2.2.1
        0 (chars "alpha beta") (by decide)⟩

/-! ### Claim C1: generated_imgs.py stops after its first image -/

/-- Claim C1, evaluation at the failing input: on a prompt file holding the
two colon-free prompts a doctor and a nurse, generated_imgs.py saves only
the image of the first prompt into generated_images100 and then terminates
through the exit(0) call on line 32, so the image of the second prompt (and
every image of the folders generated_images101 through generated_images114)
is never produced. -/
theorem generated_imgs_exit_after_first_image :
    generatedImgsRun [chars "a doctor", chars "a nurse"] =
      [chars "generated_images100/image_1_a_doctor.png"] ∧
    chars "generated_images100/image_2_a_nurse.png" ∉
      generatedImgsRun [chars "a doctor", chars "a nurse"] := by
  exact ⟨by decide, by decide⟩

/-! ### Claim C2: the gradient-accumulation step pattern -/

/-- Stepping n + 1 modulo f either adds one to n mod f while staying below
f, or wraps to zero from n mod f = f - 1. -/
theorem succ_mod_cases (f n : Nat) (hf : 1 < f) :
    ((n + 1) % f = n % f + 1 ∧ n % f + 1 < f) ∨
      ((n + 1) % f = 0 ∧ n % f = f - 1) := by
  have h1 : (1 : Nat) % f = 1 := Nat.mod_eq_of_lt hf
  have key : (n + 1) % f = (n % f + 1) % f := by rw [Nat.add_mod, h1]
  have hlt : n % f < f := Nat.mod_lt _ (by omega)
  by_cases hc : n % f + 1 < f
  · exact Or.inl ⟨by rw [key, Nat.mod_eq_of_lt hc], hc⟩
  · have he : n % f + 1 = f := by omega
    exact Or.inr ⟨by rw [key, he, Nat.mod_self], by omega⟩

/-- The accumulation buffers on arrival at batch n hold exactly the batches
since the last optimizer step. -/
theorem trainRun_state (f : Nat) (hf : 1 < f) :
    ∀ n, (trainRun f n).1 = ⟨pending f n, pending f n, pending f n⟩ := by
  intro n
  induction n with
  | zero => simp [trainRun, pending, Nat.zero_mod]
  | succ n ih =>
    have hle : n % f ≤ n := Nat.mod_le n f
    simp only [trainRun, ih]
    rcases succ_mod_cases f n hf with ⟨h1, hlt⟩ | ⟨h0, hm⟩
    · have hpos : (n + 1) % f > 0 := by omega
      have hpend : pending f (n + 1) = pending f n ++ [n] := by
        rw [pending, pending, h1]
        have e1 : n + 1 - (n % f + 1) = n - n % f := by omega
        rw [e1, range'_snoc]
        have e2 : n - n % f + n % f = n := by omega
        rw [e2]
      simp [accumBatch, if_pos hpos, hpend]
    · have hpos : ¬ (n + 1) % f > 0 := by omega
      have hpend : pending f (n + 1) = [] := by
        rw [pending, h0]
        rfl
      simp [accumBatch, if_neg hpos, hpend]

/-- The re-forward events of the cached batches contain no optimizer
step. -/
theorem countOptStep_gradBwd :
    ∀ L : List Nat,
      countOptStep ((L.map
        (fun j => [TrainEv.gradFwd j, TrainEv.backwardEv j])).flatten) = 0 := by
  intro L
  induction L with
  | nil => rfl
  | cons j L ih => simp [countOptStep] at ih ⊢; simp [ih]

/-- The number of optimizer steps after n batches is n / f. -/
theorem countOptStep_trainRun (f : Nat) (hf : 1 < f) :
    ∀ n, countOptStep (trainRun f n).2 = n / f := by
  intro n
  induction n with
  | zero => simp [trainRun, countOptStep]
  | succ n ih =>
    simp only [trainRun, countOptStep, List.countP_append] at ih ⊢
    rw [ih]
    rcases succ_mod_cases f n hf with ⟨h1, hlt⟩ | ⟨h0, hm⟩
    · have hpos : (n + 1) % f > 0 := by omega
      have hnd : ¬ f ∣ n + 1 := by
        rw [Nat.dvd_iff_mod_eq_zero]
        omega
      rw [accumBatch, if_pos hpos, Nat.succ_div, if_neg hnd]
      simp [List.countP_cons]
    · have hpos : ¬ (n + 1) % f > 0 := by omega
      have hd : f ∣ n + 1 := Nat.dvd_of_mod_eq_zero h0
      rw [accumBatch, if_neg hpos, Nat.succ_div, if_pos hd]
      have hg2 := countOptStep_gradBwd (pending f n ++ [n])
      simp only [countOptStep] at hg2
      rw [trainRun_state f hf n]
      simp only [List.countP_cons, List.countP_append, List.countP_nil]
      rw [hg2]
      simp

/-- Claim C2: with accum_freq = f above one, a batch i with (i + 1) not
divisible by f only runs the no-grad forward pass and caches the batch in
the three buffers, with no backward call and no optimizer step; a batch
with (i + 1) divisible by f re-runs the forward pass for the f cached
batches i + 1 - f, ..., i, calls backward once per cached batch, steps the
optimizer exactly once and resets the buffers to empty; over n batches the
optimizer is stepped exactly n / f times, once per f consecutive
batches. -/
theorem train_accum_freq_step_pattern (f : Nat) (hf : 1 < f) (n : Nat) :
    (∀ i, (i + 1) % f ≠ 0 →
      accumBatch f (trainRun f i).1 i =
        (⟨pending f i ++ [i], pending f i ++ [i], pending f i ++ [i]⟩,
          [TrainEv.cacheFwd i])) ∧
    (∀ i, (i + 1) % f = 0 →
      accumBatch f (trainRun f i).1 i =
        (⟨[], [], []⟩,
          TrainEv.cacheFwd i ::
            ((List.range' (i + 1 - f) f).map
              (fun j => [TrainEv.gradFwd j, TrainEv.backwardEv j])).flatten
            ++ [TrainEv.optStep])) ∧
    countOptStep (trainRun f n).2 = n / f := by
  refine ⟨?_, ?_, countOptStep_trainRun f hf n⟩
  · intro i hi
    have hpos : (i + 1) % f > 0 := by omega
    rw [trainRun_state f hf i, accumBatch, if_pos hpos]
  · intro i hi
    have hpos : ¬ (i + 1) % f > 0 := by omega
    have hm : i % f = f - 1 := by
      rcases succ_mod_cases f i hf with ⟨h1, _⟩ | ⟨_, hm⟩
      · omega
      · exact hm
    have hd : f ∣ i + 1 := Nat.dvd_of_mod_eq_zero hi
    have hfi : f ≤ i + 1 := Nat.le_of_dvd (by omega) hd
    have hcache : pending f i ++ [i] = List.range' (i + 1 - f) f := by
      have e1 : i - (f - 1) = i + 1 - f := by omega
      have e2 : i + 1 - f + (f - 1) = i := by omega
      have e3 : f - 1 + 1 = f := by omega
      have hsn := range'_snoc (i + 1 - f) (f - 1)
      rw [e3, e2] at hsn
      rw [pending, hm, e1]
      exact hsn.symm
    rw [trainRun_state f hf i, accumBatch, if_neg hpos]
    simp only [hcache]

/-- Witness for C2 at f = 2, exercising both theorem parts. -/
theorem train_accum_freq_step_pattern_witness :
    (1 < 2) ∧ countOptStep (trainRun 2 6).2 = 6 / 2 ∧
    accumBatch 2 (trainRun 2 2).1 2 =
      (⟨pending 2 2 ++ [2], pending 2 2 ++ [2], pending 2 2 ++ [2]⟩,
        [TrainEv.cacheFwd 2]) :=
  ⟨by decide, (train_accum_freq_step_pattern 2 (by decide) 6).2.2,
    (train_accum_freq_step_pattern 2 (by decide) 6).1 2 (by decide)⟩

/-! ### Claim C6: bounds on the retrieval metrics -/

/-- The recall indicator is monotone in the cutoff. -/
theorem indLt_mono (k1 k2 p : Nat) (h : k1 ≤ k2) : indLt k1 p ≤ indLt k2 p := by
  rw [indLt, indLt]
  split
  · split
    · exact le_refl 1
    · exfalso; omega
  · split
    · norm_num
    · exact le_refl 0

/-- The recall indicator is nonnegative. -/
theorem indLt_nonneg (k p : Nat) : 0 ≤ indLt k p := by
  rw [indLt]; split <;> norm_num

/-- The recall indicator is at most one. -/
theorem indLt_le_one (k p : Nat) : indLt k p ≤ 1 := by
  rw [indLt]; split <;> norm_num

/-- getD with default 0 of a list of nonnegative rationals is
nonnegative. -/
theorem getD_nonneg :
    ∀ l : List ℚ, (∀ x ∈ l, 0 ≤ x) → ∀ k, 0 ≤ l.getD k (0 : ℚ) := by
  intro l
  induction l with
  | nil => intro _ k; simp [List.getD]
  | cons a l ih =>
    intro h k
    cases k with
    | zero => simpa using h a (by simp)
    | succ k => simpa using ih (fun x hx => h x (by simp [hx])) k

/-- The median of a list of nonnegative rationals is nonnegative. -/
theorem npMedian_nonneg (xs : List ℚ) (h : ∀ x ∈ xs, 0 ≤ x) :
    0 ≤ npMedian xs := by
  have hmem : ∀ y ∈ sortBy (fun a b => decide (a ≤ b)) xs, 0 ≤ y := by
    intro y hy
    exact h y ((mem_sortBy _ y xs).mp hy)
  simp only [npMedian]
  split
  · exact getD_nonneg _ hmem _
  · have g1 := getD_nonneg _ hmem (xs.length / 2 - 1)
    have g2 := getD_nonneg _ hmem (xs.length / 2)
    linarith

/-- The metrics computed from any nonempty preds array satisfy the claimed
bounds. -/
theorem good_metricsOfPreds (preds : List Nat) (h : preds ≠ []) :
    GoodMetrics (metricsOfPreds preds) := by
  have hn : 0 < preds.length := List.length_pos.mpr h
  have hnq : (0 : ℚ) < (preds.length : ℚ) := by exact_mod_cast hn
  simp only [GoodMetrics, metricsOfPreds, npMean, List.length_map]
  refine ⟨?_, ?_, ?_, ?_, ?_, ?_⟩
  · exact div_nonneg
      (List.sum_nonneg (by
        intro x hx
        obtain ⟨p, _, rfl⟩ := List.mem_map.mp hx
        exact indLt_nonneg 1 p))
      hnq.le
  · rw [div_le_div_iff_of_pos_right hnq]
    exact List.sum_le_sum (fun p _ => indLt_mono 1 5 p (by omega))
  · rw [div_le_div_iff_of_pos_right hnq]
    exact List.sum_le_sum (fun p _ => indLt_mono 5 10 p (by omega))
  · rw [div_le_one hnq]
    have hb : (preds.map (indLt 10)).sum ≤ (preds.map (indLt 10)).length • (1 : ℚ) := by
      apply List.sum_le_card_nsmul
      intro x hx
      obtain ⟨p, _, rfl⟩ := List.mem_map.mp hx
      exact indLt_le_one 10 p
    rw [List.length_map, nsmul_eq_mul, mul_one] at hb
    exact hb
  · have hs : 0 ≤ (preds.map (Nat.cast : Nat → ℚ)).sum := by
      apply List.sum_nonneg
      intro x hx
      obtain ⟨p, _, rfl⟩ := List.mem_map.mp hx
      exact Nat.cast_nonneg p
    have hd : 0 ≤ (preds.map (Nat.cast : Nat → ℚ)).sum / (preds.length : ℚ) :=
      div_nonneg hs hnq.le
    linarith
  · have hmed : 0 ≤ npMedian (preds.map (Nat.cast : Nat → ℚ)) := by
      apply npMedian_nonneg
      intro x hx
      obtain ⟨p, _, rfl⟩ := List.mem_map.mp hx
      exact Nat.cast_nonneg p
    have hfl : (0 : ℚ) ≤ ((Int.floor (npMedian (preds.map (Nat.cast : Nat → ℚ)))) : ℚ) :=
      Int.cast_nonneg.mpr (Int.floor_nonneg.mpr hmed)
    linarith

/-- The positions of an element present in the ranking form a nonempty
list. -/
theorem matchPositions_ne_nil (v : Nat) :
    ∀ (xs : List Nat) (k : Nat), v ∈ xs → matchPositions v k xs ≠ [] := by
  intro xs
  induction xs with
  | nil => intro k h; simp at h
  | cons x xs ih =>
    intro k h
    by_cases hx : x = v
    · simp [matchPositions, hx]
    · have hv : v ∈ xs := by
        rcases List.mem_cons.mp h with h0 | h1
        · exact absurd h0.symm hx
        · exact h1
      simpa [matchPositions, hx] using ih (k + 1) hv

/-- A nonempty first row makes the preds array nonempty: the descending
ranking of the first row is a permutation of its column indices, so it
contains the ground-truth index 0. -/
theorem predsOf_ne_nil (r : List ℚ) (rows : List (List ℚ)) (hr : r ≠ []) :
    predsOf (r :: rows) ≠ [] := by
  have h0 : 0 ∈ argsortDesc r := by
    rw [argsortDesc, mem_sortBy, List.mem_range]
    exact List.length_pos.mpr hr
  have hne := matchPositions_ne_nil 0 (argsortDesc r) 0 h0
  rw [predsOf, predsAux]
  intro hcontra
  exact hne (List.append_eq_nil.mp hcontra).1

/-- Claim C6: for each retrieval direction, on feature matrices with at
least one row (and equally many image and text rows, as in evaluate), the
metrics of get_clip_metrics satisfy 0 at most R at 1 at most R at 5 at most
R at 10 at most 1, and the mean rank and the median rank are at least
one. -/
theorem get_clip_metrics_bounds (imgF txtF : List (List ℚ)) (scale : ℚ)
    (h1 : imgF ≠ []) (h2 : txtF ≠ []) (h3 : imgF.length = txtF.length) :
    GoodMetrics (get_clip_metrics imgF txtF scale).1 ∧
    GoodMetrics (get_clip_metrics imgF txtF scale).2 := by
  obtain ⟨r, rows, hri⟩ := List.exists_cons_of_ne_nil h1
  have hm : ∃ m, txtF.length = m + 1 := by
    cases txtF with
    | nil => exact absurd rfl h2
    | cons t ts => exact ⟨ts.length, rfl⟩
  obtain ⟨m, hmm⟩ := hm
  simp only [get_clip_metrics]
  constructor
  · apply good_metricsOfPreds
    rw [hri]
    simp only [logitsPerImage, List.map_cons]
    apply predsOf_ne_nil
    simp [h2]
  · apply good_metricsOfPreds
    rw [transposeM, hmm, List.range_succ_eq_map, List.map_cons]
    apply predsOf_ne_nil
    rw [hri]
    simp [logitsPerImage]

/-- Witness for C6 at one-row feature matrices. -/
theorem get_clip_metrics_bounds_witness :
    (([[(1 : ℚ)]] : List (List ℚ)) ≠ [] ∧ ([[(2 : ℚ)]] : List (List ℚ)) ≠ [] ∧
      ([[(1 : ℚ)]] : List (List ℚ)).length = ([[(2 : ℚ)]] : List (List ℚ)).length) ∧
    GoodMetrics (get_clip_metrics [[(1 : ℚ)]] [[(2 : ℚ)]] 1).1 :=
  ⟨⟨by simp, by simp, rfl⟩,
    (get_clip_metrics_bounds [[(1 : ℚ)]] [[(2 : ℚ)]] 1 (by simp) (by simp) rfl).1⟩

/-! ### Claim C4: per-file behaviour of the rename loop of ord.py -/

/-- The renames a pass performs depend only on the snapshot, not on the
directory state. -/
theorem ordPass_renames :
    ∀ (todo dir : List Name), (ordPass dir todo).2 = todo.filterMap renameAct := by
  intro todo
  induction todo with
  | nil => intro dir; rfl
  | cons f rest ih =>
    intro dir
    cases hact : renameAct f with
    | none => simp only [ordPass, hact, List.filterMap_cons]; exact ih dir
    | some fn =>
      simp only [ordPass, hact, List.filterMap_cons]
      rw [ih]

/-- Membership in the rename list of a run: exactly the files of the
listing whose target exists and differs from their current name, paired
with that target. -/
theorem mem_ordRun_renames (files : List Name) (pr : Name × Name) :
    pr ∈ (ordRun files).2 ↔
      pr.1 ∈ files ∧ renameTarget pr.1 = some pr.2 ∧ pr.1 ≠ pr.2 := by
  rw [ordRun, ordPass_renames, List.mem_filterMap]
  constructor
  · rintro ⟨a, ha, hact⟩
    cases h : renameTarget a with
    | none => simp [renameAct, h] at hact
    | some nn =>
      by_cases he : a = nn
      · simp only [renameAct, h] at hact
        rw [if_pos he] at hact
        cases hact
      · simp only [renameAct, h] at hact
        rw [if_neg he] at hact
        have hpr : (a, nn) = pr := Option.some.inj hact
        rw [← hpr]
        exact ⟨(mem_sortBy _ _ _).mp ha, h, he⟩
  · rintro ⟨hmem, htgt, hne⟩
    refine ⟨pr.1, (mem_sortBy _ _ _).mpr hmem, ?_⟩
    simp [renameAct, htgt, hne]

/-- Claim C4: a file not matching image_ followed by digits is never
renamed; a matching file whose name already equals
image_ zero-padded-number extension is left untouched; every other
matching file is renamed exactly to that target, where the number is the
parsed decimal value of the digit run and the extension is the splitext
extension of the original name. -/
theorem ord_rename_per_file (files : List Name) (f : Name) (hf : f ∈ files) :
    (matchImageNum f = none → ∀ g, (f, g) ∉ (ordRun files).2) ∧
    (∀ n, matchImageNum f = some n →
      (imgTag ++ zfill3 n ++ extname f = f → ∀ g, (f, g) ∉ (ordRun files).2) ∧
      (imgTag ++ zfill3 n ++ extname f ≠ f →
        (f, imgTag ++ zfill3 n ++ extname f) ∈ (ordRun files).2 ∧
        ∀ g, (f, g) ∈ (ordRun files).2 →
          g = imgTag ++ zfill3 n ++ extname f)) := by
  constructor
  · intro hnone g hg
    obtain ⟨_, htgt, _⟩ := (mem_ordRun_renames files (f, g)).mp hg
    rw [renameTarget, hnone] at htgt
    cases htgt
  · intro n hsome
    have htgt : renameTarget f = some (imgTag ++ zfill3 n ++ extname f) := by
      rw [renameTarget, hsome]
    constructor
    · intro heq g hg
      obtain ⟨_, htgt2, hne⟩ := (mem_ordRun_renames files (f, g)).mp hg
      rw [htgt] at htgt2
      have : imgTag ++ zfill3 n ++ extname f = g := Option.some.inj htgt2
      exact hne (by rw [← this, heq])
    · intro hne
      constructor
      · exact (mem_ordRun_renames files (f, imgTag ++ zfill3 n ++ extname f)).mpr
          ⟨hf, htgt, fun he => hne he.symm⟩
      · intro g hg
        obtain ⟨_, htgt2, _⟩ := (mem_ordRun_renames files (f, g)).mp hg
        rw [htgt] at htgt2
        exact (Option.some.inj htgt2).symm

/-- Witness for C4: image_1.png is renamed to image_001.png and to nothing
else, in a listing that also holds a non-matching file. -/
theorem ord_rename_per_file_witness :
    (chars "image_1.png" ∈ [chars "image_1.png", chars "notes.txt"]) ∧
    (matchImageNum (chars "image_1.png") = some 1) ∧
    (imgTag ++ zfill3 1 ++ extname (chars "image_1.png") ≠ chars "image_1.png" →
      (chars "image_1.png", imgTag ++ zfill3 1 ++ extname (chars "image_1.png")) ∈
        (ordRun [chars "image_1.png", chars "notes.txt"]).2 ∧
      ∀ g, (chars "image_1.png", g) ∈ (ordRun [chars "image_1.png", chars "notes.txt"]).2 →
        g = imgTag ++ zfill3 1 ++ extname (chars "image_1.png")) :=
  ⟨by decide, by decide,
    ((ord_rename_per_file [chars "image_1.png", chars "notes.txt"]
      (chars "image_1.png") (by decide)).2 1 (by decide)).2⟩

/-! ### Claim C5: idempotence of the rename loop of ord.py -/

/-- The digit characters are digits. -/
theorem digitChar_isDigit (k : Nat) (h : k < 10) : (digitChar k).isDigit = true := by
  interval_cases k <;> decide

/-- Decimal value of a digit character. -/
theorem digitChar_toNat (k : Nat) (h : k < 10) : (digitChar k).toNat - 48 = k := by
  interval_cases k <;> decide

/-- Reading one more trailing digit. -/
theorem natOfDigits_snoc (xs : Name) (c : Char) :
    natOfDigits (xs ++ [c]) = natOfDigits xs * 10 + (c.toNat - 48) := by
  rw [natOfDigits, natOfDigits, List.foldl_append]
  rfl

/-- With enough fuel the decimal printer emits a nonempty all-digit string
whose value is the printed number. -/
theorem natDigitsAux_spec :
    ∀ (fuel n : Nat), n < fuel →
      natDigitsAux fuel n ≠ [] ∧ (∀ c ∈ natDigitsAux fuel n, c.isDigit = true) ∧
        natOfDigits (natDigitsAux fuel n) = n := by
  intro fuel
  induction fuel with
  | zero => intro n h; exact absurd h (by omega)
  | succ fuel ih =>
    intro n h
    by_cases h10 : n < 10
    · rw [natDigitsAux, if_pos h10]
      refine ⟨by simp, ?_, ?_⟩
      · intro c hc
        rw [List.mem_singleton] at hc
        rw [hc]
        exact digitChar_isDigit n h10
      · have hd := digitChar_toNat n h10
        rw [natOfDigits, List.foldl_cons, List.foldl_nil]
        omega
    · have hdiv : n / 10 < fuel := by
        have h1 : n / 10 < n := Nat.div_lt_self (by omega) (by omega)
        omega
      obtain ⟨hne, hdig, hval⟩ := ih (n / 10) hdiv
      rw [natDigitsAux, if_neg h10]
      refine ⟨by simp, ?_, ?_⟩
      · intro c hc
        rcases List.mem_append.mp hc with h1 | h2
        · exact hdig c h1
        · rw [List.mem_singleton] at h2
          rw [h2]
          exact digitChar_isDigit _ (Nat.mod_lt _ (by omega))
      · rw [natOfDigits_snoc, hval, digitChar_toNat _ (Nat.mod_lt _ (by omega))]
        omega

/-- The decimal form of n is nonempty, all digits, and reads back as n. -/
theorem natDigits_spec (n : Nat) :
    natDigits n ≠ [] ∧ (∀ c ∈ natDigits n, c.isDigit = true) ∧
      natOfDigits (natDigits n) = n :=
  natDigitsAux_spec (n + 1) n (by omega)

/-- A leading zero character does not change the decimal value. -/
theorem natOfDigits_zero_cons (ds : Name) :
    natOfDigits ('0' :: ds) = natOfDigits ds := rfl

/-- Leading zero padding does not change the decimal value. -/
theorem natOfDigits_replicate_zero :
    ∀ (k : Nat) (ds : Name),
      natOfDigits (List.replicate k '0' ++ ds) = natOfDigits ds := by
  intro k
  induction k with
  | zero => intro ds; rfl
  | succ k ih =>
    intro ds
    rw [List.replicate_succ, List.cons_append, natOfDigits_zero_cons, ih]

/-- The zero-padded decimal form of n reads back as n. -/
theorem natOfDigits_zfill3 (n : Nat) : natOfDigits (zfill3 n) = n := by
  rw [zfill3, natOfDigits_replicate_zero]
  exact (natDigits_spec n).2.2

/-- The zero-padded decimal form is nonempty. -/
theorem zfill3_ne_nil (n : Nat) : zfill3 n ≠ [] := by
  intro h
  exact (natDigits_spec n).1 (List.append_eq_nil.mp h).2

/-- The zero-padded decimal form is all digits. -/
theorem zfill3_digits (n : Nat) : ∀ c ∈ zfill3 n, c.isDigit = true := by
  intro c hc
  rcases List.mem_append.mp hc with h1 | h2
  · rw [List.eq_of_mem_replicate h1]
    decide
  · exact (natDigits_spec n).2.1 c h2

/-- A digit character is not the dot. -/
theorem ne_dot_of_isDigit (c : Char) (h : c.isDigit = true) : c ≠ '.' := by
  intro he
  rw [he] at h
  exact absurd h (by decide)

/-- The dot does not occur in image_ followed by the padded number. -/
theorem dot_notMem_imgTag_zfill3 (n : Nat) : '.' ∉ imgTag ++ zfill3 n := by
  intro h
  rcases List.mem_append.mp h with h1 | h2
  · exact absurd h1 (by decide)
  · exact ne_dot_of_isDigit '.' (zfill3_digits n '.' h2) rfl

/-- The greedy digit scan passes over an all-digit block. -/
theorem leadingDigits_append_of_digits :
    ∀ ds : Name, (∀ c ∈ ds, c.isDigit = true) → ∀ t : Name,
      leadingDigits (ds ++ t) =
        (ds ++ (leadingDigits t).1, (leadingDigits t).2) := by
  intro ds
  induction ds with
  | nil => intro _ t; exact Prod.mk.eta.symm
  | cons c ds ih =>
    intro h t
    have hc : c.isDigit = true := h c (by simp)
    rw [List.cons_append]
    simp only [leadingDigits, hc, if_true]
    rw [ih (fun x hx => h x (by simp [hx])) t]
    exact rfl

/-- splitLastDot finds nothing exactly on dot-free names. -/
theorem splitLastDot_none_iff : ∀ f : Name, splitLastDot f = none ↔ '.' ∉ f := by
  intro f
  induction f with
  | nil => simp [splitLastDot]
  | cons c cs ih =>
    cases h : splitLastDot cs with
    | some bd =>
      simp only [splitLastDot, h]
      constructor
      · intro hc; exact absurd hc (by simp)
      · intro hmem
        exfalso
        apply hmem
        apply List.mem_cons_of_mem
        by_contra hno
        rw [ih.mpr hno] at h
        cases h
    | none =>
      simp only [splitLastDot, h]
      by_cases hc : c = '.'
      · rw [if_pos hc]
        constructor
        · intro hx; cases hx
        · intro hmem
          exfalso
          apply hmem
          rw [hc]
          exact List.mem_cons_self _ _
      · rw [if_neg hc]
        constructor
        · intro _ hmem
          rcases List.mem_cons.mp hmem with h1 | h2
          · exact hc h1.symm
          · exact (ih.mp h) h2
        · intro _; rfl

/-- splitLastDot splits at an explicit last dot. -/
theorem splitLastDot_append_dot (r : Name) (hr : '.' ∉ r) :
    ∀ xs : Name, splitLastDot (xs ++ '.' :: r) = some (xs, '.' :: r) := by
  intro xs
  induction xs with
  | nil =>
    rw [List.nil_append]
    have h0 : splitLastDot r = none := (splitLastDot_none_iff r).mpr hr
    simp [splitLastDot, h0]
  | cons x xs ih =>
    rw [List.cons_append]
    simp only [splitLastDot, ih]

/-- The part from the last dot on starts with the dot and has no further
dot, and the split is a decomposition of the name. -/
theorem splitLastDot_some_spec :
    ∀ (f b e : Name), splitLastDot f = some (b, e) →
      ∃ r, e = '.' :: r ∧ '.' ∉ r ∧ f = b ++ e := by
  intro f
  induction f with
  | nil => intro b e h; cases h
  | cons c cs ih =>
    intro b e h
    cases hcs : splitLastDot cs with
    | some bd =>
      simp only [splitLastDot, hcs] at h
      have hpair : (c :: bd.1, bd.2) = (b, e) := Option.some.inj h
      obtain ⟨hb, he⟩ := Prod.mk.injEq .. ▸ hpair
      have hbd : splitLastDot cs = some (bd.1, bd.2) := by
        rw [hcs, Prod.mk.eta]
      obtain ⟨r, hr1, hr2, hr3⟩ := ih bd.1 bd.2 hbd
      subst hb
      subst he
      exact ⟨r, hr1, hr2, by rw [hr3]; rfl⟩
    | none =>
      simp only [splitLastDot, hcs] at h
      by_cases hc : c = '.'
      · rw [if_pos hc] at h
        have hpair : (([] : Name), c :: cs) = (b, e) := Option.some.inj h
        obtain ⟨hb, he⟩ := Prod.mk.injEq .. ▸ hpair
        subst hb
        subst he
        exact ⟨cs, by rw [hc], (splitLastDot_none_iff cs).mp hcs, rfl⟩
      · rw [if_neg hc] at h
        cases h

/-- The extension of any name is empty or a dot followed by a dot-free
tail. -/
theorem extname_spec (f : Name) :
    extname f = [] ∨ ∃ r, extname f = '.' :: r ∧ '.' ∉ r := by
  rw [extname]
  cases h : splitLastDot f with
  | none => exact Or.inl rfl
  | some bd =>
    obtain ⟨r, hr1, hr2, _⟩ :=
      splitLastDot_some_spec f bd.1 bd.2 (by rw [h, Prod.mk.eta])
    by_cases hall : bd.1.all (fun c => c = '.') = true
    · exact Or.inl (by simp [hall])
    · refine Or.inr ⟨r, ?_, hr2⟩
      simp [hall, hr1]

/-- Matching after the literal image_ block. -/
theorem matchImageNum_imgTag_append (X : Name) :
    matchImageNum (imgTag ++ X) =
      if (leadingDigits X).1 = [] then none
      else some (natOfDigits (leadingDigits X).1) := rfl

/-- Normalized names are fixed points of the rename target map. -/
theorem renameTarget_fixed (f nn : Name) (h : renameTarget f = some nn) :
    renameTarget nn = some nn := by
  have key : ∀ e : Name, (e = [] ∨ ∃ r, e = '.' :: r ∧ '.' ∉ r) →
      ∀ n : Nat, renameTarget (imgTag ++ zfill3 n ++ e) =
        some (imgTag ++ zfill3 n ++ e) := by
    intro e hcase n
    have hdigits := zfill3_digits n
    have hznil := zfill3_ne_nil n
    have hLDe : (leadingDigits e).1 = [] := by
      rcases hcase with rfl | ⟨r, rfl, _⟩
      · rfl
      · rfl
    have hmatch : matchImageNum (imgTag ++ zfill3 n ++ e) = some n := by
      rw [List.append_assoc, matchImageNum_imgTag_append,
        leadingDigits_append_of_digits (zfill3 n) hdigits e, hLDe, List.append_nil,
        if_neg hznil, natOfDigits_zfill3]
    have hext : extname (imgTag ++ zfill3 n ++ e) = e := by
      rcases hcase with rfl | ⟨r, rfl, hdot⟩
      · rw [List.append_nil, extname,
          (splitLastDot_none_iff _).mpr (dot_notMem_imgTag_zfill3 n)]
      · have hs := splitLastDot_append_dot r hdot (imgTag ++ zfill3 n)
        simp only [extname, hs]
        rw [if_neg ?hnall]
        case hnall =>
          intro hall
          rw [List.all_eq_true] at hall
          have h1 := hall 'i' (List.mem_append.mpr (Or.inl (by decide)))
          exact absurd h1 (by decide)
    rw [renameTarget, hmatch, hext]
  rw [renameTarget] at h
  cases hma : matchImageNum f with
  | none => rw [hma] at h; cases h
  | some n =>
    rw [hma] at h
    have hnn : nn = imgTag ++ zfill3 n ++ extname f := (Option.some.inj h).symm
    rw [hnn]
    exact key (extname f) (extname_spec f) n

/-- A file the loop does not rename is a fixed point. -/
theorem ordFixed_of_renameAct_none (f : Name) (h : renameAct f = none) :
    ordFixed f := by
  cases ht : renameTarget f with
  | none => exact Or.inl ht
  | some nn =>
    simp only [renameAct, ht] at h
    by_cases he : f = nn
    · rw [← he] at ht
      exact Or.inr ht
    · rw [if_neg he] at h
      cases h

/-- What a performed rename action says about its file. -/
theorem renameAct_some_spec (f : Name) (fn : Name × Name)
    (h : renameAct f = some fn) :
    fn.1 = f ∧ renameTarget f = some fn.2 ∧ fn.1 ≠ fn.2 := by
  cases ht : renameTarget f with
  | none => simp [renameAct, ht] at h
  | some nn =>
    simp only [renameAct, ht] at h
    by_cases he : f = nn
    · rw [if_pos he] at h; cases h
    · rw [if_neg he] at h
      have hp : (f, nn) = fn := Option.some.inj h
      cases hp
      exact ⟨rfl, by simpa using ht, by simpa using he⟩

/-- After the pass every name of the directory is a fixed point, provided
every name was either still to be processed or already fixed. -/
theorem ordPass_final_fixed :
    ∀ (todo dir : List Name),
      (∀ g ∈ dir, g ∈ todo ∨ ordFixed g) →
      ∀ g ∈ (ordPass dir todo).1, ordFixed g := by
  intro todo
  induction todo with
  | nil =>
    intro dir h g hg
    simp only [ordPass] at hg
    rcases h g hg with h0 | h1
    · exact absurd h0 (by simp)
    · exact h1
  | cons f rest ih =>
    intro dir h g hg
    cases hact : renameAct f with
    | none =>
      simp only [ordPass, hact] at hg
      refine ih dir ?_ g hg
      intro g0 hg0
      rcases h g0 hg0 with h0 | h1
      · rcases List.mem_cons.mp h0 with h2 | h3
        · exact Or.inr (h2 ▸ ordFixed_of_renameAct_none f hact)
        · exact Or.inl h3
      · exact Or.inr h1
    | some fn =>
      simp only [ordPass, hact] at hg
      obtain ⟨hfn1, htgt, hne⟩ := renameAct_some_spec f fn hact
      refine ih _ ?_ g hg
      intro g0 hg0
      rcases List.mem_append.mp hg0 with h0 | h1
      · have hg0d := List.mem_filter.mp h0
        have hb : g0 ≠ fn.1 ∧ g0 ≠ fn.2 := by
          have := hg0d.2
          simp at this
          exact this
        rcases h g0 hg0d.1 with h2 | h3
        · rcases List.mem_cons.mp h2 with h4 | h5
          · exact absurd (h4.trans hfn1.symm) hb.1
          · exact Or.inl h5
        · exact Or.inr h3
      · have hg02 : g0 = fn.2 := by simpa using h1
        exact Or.inr (hg02 ▸ Or.inr (renameTarget_fixed f fn.2 htgt))

/-- A pass over fixed points performs no rename and keeps the directory. -/
theorem ordPass_no_renames (dir : List Name) :
    ∀ todo : List Name, (∀ f ∈ todo, ordFixed f) → ordPass dir todo = (dir, []) := by
  intro todo
  induction todo with
  | nil => intro _; rfl
  | cons f rest ih =>
    intro h
    have hf := h f (by simp)
    have hact : renameAct f = none := by
      rcases hf with h0 | h1
      · simp [renameAct, h0]
      · simp [renameAct, h1]
    simp only [ordPass, hact]
    exact ih (fun g hg => h g (by simp [hg]))

/-- Claim C5: after one complete run of ord.py every remaining file that
matches image_ followed by digits already bears its normalized name (it is
a fixed point of the target map), so a second run performs no rename and
leaves the directory unchanged. -/
theorem ord_rename_idempotent (files : List Name) :
    (∀ g ∈ (ordRun files).1, ordFixed g) ∧
    (ordRun (ordRun files).1).2 = [] ∧
    (ordRun (ordRun files).1).1 = (ordRun files).1 := by
  have hfix : ∀ g ∈ (ordRun files).1, ordFixed g := by
    rw [ordRun]
    apply ordPass_final_fixed
    intro g hg
    exact Or.inl ((mem_sortBy _ _ _).mpr hg)
  have hall : ∀ f ∈ sortBy ordKeyLe (ordRun files).1, ordFixed f := by
    intro f hf
    exact hfix f ((mem_sortBy _ _ _).mp hf)
  have hrun : ordRun (ordRun files).1 = ((ordRun files).1, []) := by
    rw [show ordRun (ordRun files).1 =
      ordPass (ordRun files).1 (sortBy ordKeyLe (ordRun files).1) from rfl]
    exact ordPass_no_renames _ _ hall
  exact ⟨hfix, by rw [hrun], by rw [hrun]⟩

/-- Witness for C5 at a concrete directory. -/
theorem ord_rename_idempotent_witness :
    chars "image_001.png" ∈ (ordRun [chars "image_1.png", chars "notes.txt"]).1 ∧
    ordFixed (chars "image_001.png") :=
  ⟨by decide,
    (ord_rename_idempotent [chars "image_1.png", chars "notes.txt"]).1
      (chars "image_001.png") (by decide)⟩
